import Mathlib

set_option maxHeartbeats 1000000

/--
Verification development for the Vault key-pair lifecycle service
(`src/core/helpers/KeyManagerHelper.py` and `src/core/bases/__init__.py`).
The Python code is shallowly embedded below: key material, PEM serialization
and Fernet encryption produced by external libraries are modelled as
explicit executable functions; randomness (key generation, Fernet freshness
material) is modelled by explicit counters threaded through the state.
-/
def vaultDevelopmentOverview : Unit := ()

/-- The RFC 4648 base64 alphabet, as used by Python's `base64.b64encode`. -/
def b64chars : List Char :=
  ("ABCDEFGHIJKLMNOPQRSTUVWXYZabcdefghijklmnopqrstuvwxyz0123456789+/").data

/-- The base64 digit for a 6-bit value. -/
def b64c (n : Nat) : Char :=
  if h : n < b64chars.length then b64chars.get ⟨n, h⟩ else 'A'

/-- The 6-bit value of a base64 digit, if any. -/
def b64v (c : Char) : Option Nat := b64chars.indexOf? c

/-- Models `base64.b64encode` on a byte sequence (RFC 4648, with padding). -/
def b64encodeBytes : List Nat → List Char
  | [] => []
  | [a] => [b64c (a / 4), b64c (a % 4 * 16), '=', '=']
  | [a, b] => [b64c (a / 4), b64c (a % 4 * 16 + b / 16), b64c (b % 16 * 4), '=']
  | a :: b :: c :: t =>
      b64c (a / 4) :: b64c (a % 4 * 16 + b / 16) :: b64c (b % 16 * 4 + c / 64) :: b64c (c % 64) ::
        b64encodeBytes t

/-- Models `base64.b64decode` (strict): the partial inverse of `b64encodeBytes`. -/
def b64decodeBytes : List Char → Option (List Nat)
  | [] => some []
  | c1 :: c2 :: c3 :: c4 :: t =>
    match b64v c1, b64v c2 with
    | some v1, some v2 =>
      if c3 = '=' then
        (if c4 = '=' ∧ t = [] then some [v1 * 4 + v2 / 16] else none)
      else
        match b64v c3 with
        | some v3 =>
          if c4 = '=' then
            (if t = [] then some [v1 * 4 + v2 / 16, v2 % 16 * 16 + v3 / 4] else none)
          else
            match b64v c4, b64decodeBytes t with
            | some v4, some rest =>
                some ((v1 * 4 + v2 / 16) :: (v2 % 16 * 16 + v3 / 4) :: (v3 % 4 * 64 + v4) :: rest)
            | _, _ => none
        | none => none
    | _, _ => none
  | _ => none

/-- The bytes of a (latin-1 range) string, modelling `str.encode("utf-8")`
on the ASCII strings this system actually produces. -/
def strBytes (s : String) : List Nat := s.data.map Char.toNat

/-- Models `base64.b64encode(s).decode("utf-8")` at the string level. -/
def strB64encode (s : String) : String := String.mk (b64encodeBytes (strBytes s))

/-- Models `base64.b64decode` at the string level. -/
def b64decodeStr (s : String) : Option String :=
  (b64decodeBytes s.data).map (fun bs => String.mk (bs.map Char.ofNat))

/-- Left-to-right scan up to the first occurrence of `sep`: returns the
characters before it and the remainder after it. -/
def takeUntilChar (sep : Char) : List Char → Option (List Char × List Char)
  | [] => none
  | c :: cs =>
    if c = sep then some ([], cs)
    else
      match takeUntilChar sep cs with
      | some (a, r) => some (c :: a, r)
      | none => none

/-- Removes an expected literal prefix, or fails. -/
def dropPfx : List Char → List Char → Option (List Char)
  | [], s => some s
  | _ :: _, [] => none
  | p :: ps, c :: cs => if c = p then dropPfx ps cs else none

/-- The ASCII apostrophe (Python's string-repr quote character). -/
def quoteChar : Char := Char.ofNat 39

/-- A NIST P-256 private key, identified by the draw it was generated from:
the cryptographically secure random source of `ec.generate_private_key` is
modelled by an explicit entropy counter. -/
structure ECPrivateKey where
  seed : Nat
deriving DecidableEq, Repr

/-- A NIST P-256 public key, identified by the private key it derives from. -/
structure ECPublicKey where
  ofPriv : Nat
deriving DecidableEq, Repr

/-- Models `ec.generate_private_key(ec.SECP256R1())` at entropy draw `entropy`. -/
def ec_generate_private_key (entropy : Nat) : ECPrivateKey := ⟨entropy⟩

/-- Models `private_key.public_key()`: the mathematical derivation of the
public counterpart of a private key. -/
def ECPrivateKey.public_key (k : ECPrivateKey) : ECPublicKey := ⟨k.seed⟩

/-- The DER payload of a serialized key, modelled as an opaque injective
blob (one byte per possible seed value, plus one). -/
def keyBlob (seed : Nat) : String := String.mk (List.replicate (seed + 1) 'M')

/-- A PEM text envelope around a serialized key body. -/
def pemBlock (label : String) (body : String) : String :=
  String.mk (("-----BEGIN ").data ++ label.data ++ ("-----\n").data ++ body.data ++
    ("\n-----END ").data ++ label.data ++ ("-----\n").data)

/-- Models `private_key.private_bytes(Encoding.PEM, PrivateFormat.PKCS8,
NoEncryption())`. -/
def private_bytes_pkcs8_pem (k : ECPrivateKey) : String :=
  pemBlock "PRIVATE KEY" (keyBlob k.seed)

/-- Models `public_key.public_bytes(Encoding.PEM,
PublicFormat.SubjectPublicKeyInfo)`. -/
def public_bytes_spki_pem (k : ECPublicKey) : String :=
  pemBlock "PUBLIC KEY" (keyBlob k.ofPriv)

/-- Mirrors `KeyManagerHelper.generate_keys` (lines 129-169). The entropy
counter stands for the secure random source; the two generated private keys
consume draws `entropy` and `entropy + 1`. Note: exactly as in the source
(line 140), `refresh_public_key` is `private_key.public_key()` — derived
from the primary private key, not from `refresh_private_key`. -/
def generate_keys (entropy : Nat) : String × String × String × String :=
  let private_key := ec_generate_private_key entropy
  let refresh_private_key := ec_generate_private_key (entropy + 1)
  let public_key := private_key.public_key
  let refresh_public_key := private_key.public_key
  let private_key_pem := private_bytes_pkcs8_pem private_key
  let refresh_private_key_pem := private_bytes_pkcs8_pem refresh_private_key
  let public_key_pem := public_bytes_spki_pem public_key
  let refresh_public_key_pem := public_bytes_spki_pem refresh_public_key
  (strB64encode private_key_pem, strB64encode public_key_pem,
   strB64encode refresh_private_key_pem, strB64encode refresh_public_key_pem)

/-- The four-field key bundle (`data_to_encrypt` in `encrypt_keys`). -/
structure KeyBundle where
  private_key : String
  public_key : String
  refresh_private_key : String
  refresh_public_key : String
deriving DecidableEq, Repr

/-- Whether a character belongs to the base64 alphabet (including the `=`
padding): the character class of every bundle field this system produces. -/
def isB64Char (c : Char) : Bool :=
  (65 ≤ c.toNat && c.toNat ≤ 90) || (97 ≤ c.toNat && c.toNat ≤ 122) ||
    (48 ≤ c.toNat && c.toNat ≤ 57) || c.toNat == 43 || c.toNat == 47 || c.toNat == 61

/-- A well-formed bundle per the data model (§3): all four fields are
base64-encoded text. -/
def wellFormedBundle (b : KeyBundle) : Bool :=
  b.private_key.data.all isB64Char && b.public_key.data.all isB64Char &&
    b.refresh_private_key.data.all isB64Char && b.refresh_public_key.data.all isB64Char

/-- Python `repr` of a string needing no escapes: apostrophe framing. -/
def pyStrRepr (s : String) : List Char := quoteChar :: s.data ++ [quoteChar]

/-- One serialized dict key: `repr(name)` followed by a colon and space. -/
def dictKey (name : String) : List Char := pyStrRepr name ++ (": ").data

/-- Opening of the serialized dict, up to and including the quote that opens
the first value. -/
def bundleHdr : List Char := '\x7b' :: dictKey "private_key" ++ [quoteChar]

/-- Between two serialized dict entries, after the quote closing the previous
value: comma, space, next key, and the quote opening the next value. -/
def sepTail (name : String) : List Char := (", ").data ++ dictKey name ++ [quoteChar]

/-- The closing brace of the serialized dict. -/
def bundleEnd : List Char := ['\x7d']

/-- Models Python `str(data_to_encrypt)` for the dict built in
`encrypt_keys` (lines 116-121): the exact character sequence CPython prints
for that four-entry dict. The concatenation is grouped around each value for
the parser proofs; the resulting list is the flat dict text. -/
def pyDictChars (b : KeyBundle) : List Char :=
  bundleHdr ++ (b.private_key.data ++ (quoteChar :: (sepTail "public_key" ++
    (b.public_key.data ++ (quoteChar :: (sepTail "refresh_private_key" ++
      (b.refresh_private_key.data ++ (quoteChar :: (sepTail "refresh_public_key" ++
        (b.refresh_public_key.data ++ (quoteChar :: bundleEnd)))))))))))

/-- `str(data_to_encrypt)` as a string. -/
def pyDictStr (b : KeyBundle) : String := String.mk (pyDictChars b)

/-- Modelled from the spec (§4.2 KeyCipher.decrypt, FormatError case): the
inverse of the dict serialization. The repository ships only the encryption
direction, so the parser is modelled from the spec's description of
`decrypt` as the paired inverse parsing the four-field bundle. -/
def parse_bundle (plaintext : String) : Option KeyBundle :=
  match dropPfx bundleHdr plaintext.data with
  | none => none
  | some s1 =>
    match takeUntilChar quoteChar s1 with
    | none => none
    | some (f1, r1) =>
      match dropPfx (sepTail "public_key") r1 with
      | none => none
      | some s2 =>
        match takeUntilChar quoteChar s2 with
        | none => none
        | some (f2, r2) =>
          match dropPfx (sepTail "refresh_private_key") r2 with
          | none => none
          | some s3 =>
            match takeUntilChar quoteChar s3 with
            | none => none
            | some (f3, r3) =>
              match dropPfx (sepTail "refresh_public_key") r3 with
              | none => none
              | some s4 =>
                match takeUntilChar quoteChar s4 with
                | none => none
                | some (f4, r4) =>
                  if r4 = bundleEnd then
                    some ⟨String.mk f1, String.mk f2, String.mk f3, String.mk f4⟩
                  else none

/-- Models `Fernet(self.encryption_key).encrypt(...)`: an authenticated,
internally base64-framed token binding the key, fresh material (the nonce
draw, standing for Fernet's random IV and timestamp), and the plaintext. -/
def fernet_encrypt (key : String) (nonce : Nat) (plaintext : String) : String :=
  String.mk (b64encodeBytes (strBytes key) ++
    ('.' :: (List.replicate nonce 'A' ++ ('.' :: b64encodeBytes (strBytes plaintext)))))

/-- Models `Fernet(key).decrypt(token)`: `none` when the token is malformed
or was not produced under the same key (authentication failure). -/
def fernet_decrypt (key : String) (token : String) : Option String :=
  match takeUntilChar '.' token.data with
  | none => none
  | some (kpart, rest) =>
    if kpart = b64encodeBytes (strBytes key) then
      match takeUntilChar '.' rest with
      | none => none
      | some (_, ptpart) =>
        match b64decodeBytes ptpart with
        | none => none
        | some bs => some (String.mk (bs.map Char.ofNat))
    else none

/-- Mirrors `KeyManagerHelper.encrypt_keys` (lines 103-126): builds the
four-entry dict, takes its `str`, and Fernet-encrypts it. -/
def encrypt_keys (encryption_key : String) (nonce : Nat)
    (private_key public_key refresh_private_key refresh_public_key : String) : String :=
  let data_to_encrypt : KeyBundle :=
    { private_key := private_key, public_key := public_key,
      refresh_private_key := refresh_private_key, refresh_public_key := refresh_public_key }
  fernet_encrypt encryption_key nonce (pyDictStr data_to_encrypt)

/-- Modelled from the spec (§4.2): `decrypt(ciphertext)` — the paired
inverse of `encrypt`; the repository ships only the encrypt direction. -/
def decrypt_keys (encryption_key : String) (ciphertext : String) : Option KeyBundle :=
  match fernet_decrypt encryption_key ciphertext with
  | none => none
  | some plaintext => parse_bundle plaintext

/-- Mirrors `core.databases.Models.KeyPair`. The `id` and `created_at`
columns come from `BaseModel` (`core/bases/BaseModels.py`, which is not in
src) and are modelled from the spec (§3, §6): a store-assigned id and a UTC
creation timestamp (in seconds) set once at insert. -/
structure KeyPair where
  id : Nat
  system_code : String
  private_key : String
  public_key : String
  refresh_private_key : String
  refresh_public_key : String
  created_at : Nat
deriving DecidableEq, Repr

/-- The persistence failure of §7 (commit failure). -/
inductive DbError where
  | persistenceError
deriving DecidableEq, Repr

/-- A SQLAlchemy ORM session over the key-pair table: the committed rows and
the rows added but not yet committed. -/
structure Session where
  committed : List KeyPair
  pending : List KeyPair
deriving DecidableEq, Repr

/-- `session.add(key_pair)`: stages a row. -/
def Session.add (s : Session) (kp : KeyPair) : Session :=
  { s with pending := s.pending ++ [kp] }

/-- `session.commit()`: durably appends the staged rows, or raises (the
injected `fails` fault models an underlying storage failure); a failed
commit writes nothing. -/
def Session.commit (s : Session) (fails : Bool) : Except DbError Session :=
  if fails then Except.error DbError.persistenceError
  else Except.ok { committed := s.committed ++ s.pending, pending := [] }

/-- `session.rollback()`: discards the staged rows. -/
def Session.rollback (s : Session) : Session := { s with pending := [] }

/-- `DatabaseSession.__exit__`: `session.close()` — the session ends and any
transaction still in progress is rolled back, so only committed rows remain
visible. Returns the store contents after the block. -/
def Session.close (s : Session) : List KeyPair := s.committed

/-- Mirrors `DatabaseSession.commit_rollback` (core/bases, lines 72-83):
try to commit; on failure roll back and re-raise. -/
def commit_rollback (fails : Bool) (s : Session) : Except DbError Unit × Session :=
  match s.commit fails with
  | Except.ok s1 => (Except.ok (), s1)
  | Except.error e => (Except.error e, s.rollback)

/-- The world the helper operates in: the persisted table (in insertion
order), the store's id sequence, and the two randomness counters. -/
structure VaultState where
  store : List KeyPair
  nextId : Nat
  entropy : Nat
  nonce : Nat
deriving DecidableEq, Repr

/-- Mirrors `KeyManagerHelper.key_is_expired` (lines 33-45): expired iff
`now` is strictly past `created_at + timedelta(days=1)`, in UTC seconds. -/
def key_is_expired (now : Nat) (key_pair : KeyPair) : Bool :=
  let expiration_date := key_pair.created_at + 86400
  decide (now > expiration_date)

/-- `.order_by(KeyPair.created_at.desc()).first()` over rows in insertion
order: the first row of a stable descending sort, i.e. the earliest-inserted
row among those of maximal `created_at`. -/
def firstByCreatedDesc : List KeyPair → Option KeyPair
  | [] => none
  | kp :: t =>
    match firstByCreatedDesc t with
    | none => some kp
    | some best => if best.created_at > kp.created_at then some best else some kp

/-- Mirrors `KeyManagerHelper.get_latest_key_pair` (lines 172-189). -/
def get_latest_key_pair (store : List KeyPair) (system_code : String) : Option KeyPair :=
  firstByCreatedDesc (store.filter (fun kp => kp.system_code == system_code))

/-- Mirrors `KeyManagerHelper.generate_and_encrypt_keys` (lines 77-100):
generate, stage and commit the new row inside a with-session block, then
encrypt. Besides the response, the updated world is returned; a commit
failure propagates as an error after the session closes. -/
def generate_and_encrypt_keys (encryption_key : String) (commit_fails : Bool) (now : Nat)
    (st : VaultState) (system_code : String) : Except DbError String × VaultState :=
  match generate_keys st.entropy with
  | (private_key, public_key, refresh_private_key, refresh_public_key) =>
    let st1 : VaultState := { st with entropy := st.entropy + 2 }
    let key_pair : KeyPair :=
      { id := st1.nextId, system_code := system_code, private_key := private_key,
        public_key := public_key, refresh_private_key := refresh_private_key,
        refresh_public_key := refresh_public_key, created_at := now }
    let session : Session := { committed := st1.store, pending := [] }
    let session := session.add key_pair
    match session.commit commit_fails with
    | Except.error e => (Except.error e, { st1 with store := session.close })
    | Except.ok session1 =>
      let st2 : VaultState := { st1 with store := session1.close, nextId := st1.nextId + 1 }
      (Except.ok (encrypt_keys encryption_key st2.nonce private_key public_key
          refresh_private_key refresh_public_key),
       { st2 with nonce := st2.nonce + 1 })

/-- Mirrors `KeyManagerHelper.keysPairs` (lines 48-74), the `issue`
operation: reuse the latest unexpired record, otherwise generate; the
returned string is `response.encrypted_data`. -/
def keysPairs (encryption_key : String) (commit_fails : Bool) (now : Nat)
    (st : VaultState) (system_code : String) : Except DbError String × VaultState :=
  match get_latest_key_pair st.store system_code with
  | some latest_key_pair =>
    if key_is_expired now latest_key_pair then
      generate_and_encrypt_keys encryption_key commit_fails now st system_code
    else
      (Except.ok (encrypt_keys encryption_key st.nonce latest_key_pair.private_key
          latest_key_pair.public_key latest_key_pair.refresh_private_key
          latest_key_pair.refresh_public_key),
       { st with nonce := st.nonce + 1 })
  | none => generate_and_encrypt_keys encryption_key commit_fails now st system_code

/-- The base64 field `generate_keys e` stores for a private key drawn at `e`. -/
def privField (e : Nat) : String :=
  strB64encode (private_bytes_pkcs8_pem (ec_generate_private_key e))

/-- The base64 field `generate_keys e` stores for the public key derived
from the private key drawn at `e`. -/
def pubField (e : Nat) : String :=
  strB64encode (public_bytes_spki_pem (ECPrivateKey.public_key (ec_generate_private_key e)))

/-- The record the generation branch appends at state `st`. -/
def genRecord (st : VaultState) (system_code : String) (now : Nat) : KeyPair :=
  { id := st.nextId, system_code := system_code, private_key := privField st.entropy,
    public_key := pubField st.entropy, refresh_private_key := privField (st.entropy + 1),
    refresh_public_key := pubField st.entropy, created_at := now }

/-- The four-field bundle held by a stored record. -/
def bundleOf (kp : KeyPair) : KeyBundle :=
  { private_key := kp.private_key, public_key := kp.public_key,
    refresh_private_key := kp.refresh_private_key, refresh_public_key := kp.refresh_public_key }

/-- The randomness counters have not been replayed: no stored record already
holds key material of an entropy draw that is still to come. Holds for every
state reachable from an empty store. -/
def freshState (st : VaultState) : Prop :=
  ∀ kp ∈ st.store, ∀ e, st.entropy ≤ e →
    kp.private_key ≠ privField e ∧ kp.public_key ≠ pubField e ∧
      kp.refresh_private_key ≠ privField e ∧ kp.refresh_public_key ≠ pubField e

/-- A PEM text block: begins with a BEGIN marker line and ends with a
dashed marker line. -/
def isPemBlock (s : String) : Bool :=
  List.isPrefixOf (("-----BEGIN ").data) s.data && List.isSuffixOf (("-----\n").data) s.data


/-- A concrete stored record used to instantiate the theorems below: its
field strings are deliberately shorter than any base64 field the generator
can produce. -/
def sampleRecord : KeyPair :=
  { id := 0, system_code := "A", private_key := "PK", public_key := "PB",
    refresh_private_key := "RPK", refresh_public_key := "RPB", created_at := 0 }

/-- A concrete world holding exactly `sampleRecord`. -/
def sampleState : VaultState := { store := [sampleRecord], nextId := 1, entropy := 0, nonce := 0 }

/-- The world with an empty store. -/
def emptyState : VaultState := { store := [], nextId := 0, entropy := 0, nonce := 0 }

/-- The bundle held by `sampleRecord`. -/
def sampleBundle : KeyBundle :=
  { private_key := "PK", public_key := "PB", refresh_private_key := "RPK",
    refresh_public_key := "RPB" }

/-- Three records for one code at strictly increasing creation times. -/
def recT1 : KeyPair :=
  { id := 1, system_code := "A", private_key := "K1", public_key := "P1",
    refresh_private_key := "R1", refresh_public_key := "Q1", created_at := 1 }

def recT2 : KeyPair :=
  { id := 2, system_code := "A", private_key := "K2", public_key := "P2",
    refresh_private_key := "R2", refresh_public_key := "Q2", created_at := 2 }

def recT3 : KeyPair :=
  { id := 3, system_code := "A", private_key := "K3", public_key := "P3",
    refresh_private_key := "R3", refresh_public_key := "Q3", created_at := 3 }

theorem b64v_b64c : ∀ n < 64, b64v (b64c n) = some n := by decide

theorem b64c_ne_pad : ∀ n < 64, b64c n ≠ '=' := by decide

theorem b64c_mem (n : Nat) : b64c n ∈ b64chars := by
  unfold b64c
  split
  · exact List.get_mem _ _ _
  · decide

theorem b64encode_mem (l : List Nat) :
    ∀ ch ∈ b64encodeBytes l, ch = '=' ∨ ch ∈ b64chars := by
  induction l using b64encodeBytes.induct with
  | case1 => intro ch h; simp [b64encodeBytes] at h
  | case2 a =>
      intro ch h
      simp only [b64encodeBytes, List.mem_cons, List.mem_singleton, List.not_mem_nil] at h
      rcases h with h | h | h | h | h
      · exact Or.inr (h ▸ b64c_mem _)
      · exact Or.inr (h ▸ b64c_mem _)
      · exact Or.inl h
      · exact Or.inl h
      · exact absurd h (by simp)
  | case3 a b =>
      intro ch h
      simp only [b64encodeBytes, List.mem_cons, List.not_mem_nil] at h
      rcases h with h | h | h | h | h
      · exact Or.inr (h ▸ b64c_mem _)
      · exact Or.inr (h ▸ b64c_mem _)
      · exact Or.inr (h ▸ b64c_mem _)
      · exact Or.inl h
      · exact absurd h (by simp)
  | case4 a b c t ih =>
      intro ch h
      simp only [b64encodeBytes, List.mem_cons] at h
      rcases h with h | h | h | h | h
      · exact Or.inr (h ▸ b64c_mem _)
      · exact Or.inr (h ▸ b64c_mem _)
      · exact Or.inr (h ▸ b64c_mem _)
      · exact Or.inr (h ▸ b64c_mem _)
      · exact ih ch h

theorem b64_roundtrip (l : List Nat) (hb : ∀ x ∈ l, x < 256) :
    b64decodeBytes (b64encodeBytes l) = some l := by
  induction l using b64encodeBytes.induct with
  | case1 => rfl
  | case2 a =>
      have ha : a < 256 := hb a (by simp)
      have h1 : a / 4 < 64 := by omega
      have h2 : a % 4 * 16 < 64 := by omega
      simp only [b64encodeBytes, b64decodeBytes, b64v_b64c _ h1, b64v_b64c _ h2]
      simp only [if_pos rfl, and_self, Option.some.injEq, List.cons.injEq, and_true]
      simp
      omega
  | case3 a b =>
      have ha : a < 256 := hb a (by simp)
      have hbb : b < 256 := hb b (by simp)
      have h1 : a / 4 < 64 := by omega
      have h2 : a % 4 * 16 + b / 16 < 64 := by omega
      have h3 : b % 16 * 4 < 64 := by omega
      simp only [b64encodeBytes, b64decodeBytes, b64v_b64c _ h1, b64v_b64c _ h2, b64v_b64c _ h3,
        b64c_ne_pad _ h3]
      simp
      omega
  | case4 a b c t ih =>
      have ha : a < 256 := hb a (by simp)
      have hbb : b < 256 := hb b (by simp)
      have hc : c < 256 := hb c (by simp)
      have h1 : a / 4 < 64 := by omega
      have h2 : a % 4 * 16 + b / 16 < 64 := by omega
      have h3 : b % 16 * 4 + c / 64 < 64 := by omega
      have h4 : c % 64 < 64 := by omega
      have ht : b64decodeBytes (b64encodeBytes t) = some t :=
        ih (fun x hx => hb x (by simp [hx]))
      simp only [b64encodeBytes, b64decodeBytes, b64v_b64c _ h1, b64v_b64c _ h2, b64v_b64c _ h3,
        b64v_b64c _ h4, b64c_ne_pad _ h3, b64c_ne_pad _ h4, ht]
      simp
      omega

theorem strB64_roundtrip (s : String) (h : ∀ c ∈ s.data, c.toNat < 256) :
    b64decodeStr (strB64encode s) = some s := by
  unfold b64decodeStr strB64encode
  have hbytes : ∀ x ∈ strBytes s, x < 256 := by
    intro x hx
    simp only [strBytes, List.mem_map] at hx
    obtain ⟨c, hc, rfl⟩ := hx
    exact h c hc
  rw [show (String.mk (b64encodeBytes (strBytes s))).data = b64encodeBytes (strBytes s) from rfl]
  rw [b64_roundtrip _ hbytes]
  have hmap : ∀ (l : List Char), List.map Char.ofNat (List.map Char.toNat l) = l := by
    intro l
    induction l with
    | nil => rfl
    | cons c t ih => simp only [List.map_cons, ih, Char.ofNat_toNat]
  show some (String.mk (List.map Char.ofNat (List.map Char.toNat s.data))) = some s
  rw [hmap]

theorem map_ofNat_toNat (l : List Char) :
    List.map Char.ofNat (List.map Char.toNat l) = l := by
  induction l with
  | nil => rfl
  | cons c t ih => simp only [List.map_cons, ih, Char.ofNat_toNat]

theorem dropPfx_append (p s : List Char) : dropPfx p (p ++ s) = some s := by
  induction p with
  | nil => rfl
  | cons c t ih => simp [dropPfx, ih]

theorem takeUntilChar_append (sep : Char) (a r : List Char) (h : sep ∉ a) :
    takeUntilChar sep (a ++ sep :: r) = some (a, r) := by
  induction a with
  | nil => simp [takeUntilChar]
  | cons c t ih =>
      have hc : ¬(c = sep) := fun hc => h (hc ▸ List.mem_cons_self c t)
      have ih2 := ih (fun hm => h (List.mem_cons_of_mem _ hm))
      show takeUntilChar sep (c :: (t ++ sep :: r)) = some (c :: t, r)
      unfold takeUntilChar
      rw [if_neg hc, ih2]

theorem b64chars_no_dot : ∀ ch ∈ b64chars, ch ≠ '.' := by decide

theorem b64encode_no_dot (l : List Nat) : ('.' : Char) ∉ b64encodeBytes l := by
  intro hm
  rcases b64encode_mem l _ hm with h | h
  · exact absurd h (by decide)
  · exact b64chars_no_dot _ h rfl

theorem fernet_roundtrip (key : String) (nonce : Nat) (pt : String)
    (h : ∀ c ∈ pt.data, c.toNat < 256) :
    fernet_decrypt key (fernet_encrypt key nonce pt) = some pt := by
  have hrep : ('.' : Char) ∉ List.replicate nonce 'A' := by
    intro hm
    exact absurd (List.eq_of_mem_replicate hm) (by decide)
  have hbytes : ∀ x ∈ strBytes pt, x < 256 := by
    intro x hx
    simp only [strBytes, List.mem_map] at hx
    obtain ⟨c, hc, rfl⟩ := hx
    exact h c hc
  have e1 := takeUntilChar_append '.' (b64encodeBytes (strBytes key))
    (List.replicate nonce 'A' ++ ('.' :: b64encodeBytes (strBytes pt))) (b64encode_no_dot _)
  have e2 := takeUntilChar_append '.' (List.replicate nonce 'A')
    (b64encodeBytes (strBytes pt)) hrep
  unfold fernet_decrypt fernet_encrypt
  simp only [show (String.mk (b64encodeBytes (strBytes key) ++
      ('.' :: (List.replicate nonce 'A' ++ ('.' :: b64encodeBytes (strBytes pt)))))).data =
      b64encodeBytes (strBytes key) ++
      ('.' :: (List.replicate nonce 'A' ++ ('.' :: b64encodeBytes (strBytes pt)))) from rfl,
    e1, e2, b64_roundtrip _ hbytes, if_pos rfl]
  show some (String.mk (List.map Char.ofNat (List.map Char.toNat pt.data))) = some pt
  rw [map_ofNat_toNat]

theorem isB64Char_ascii {c : Char} (h : isB64Char c = true) : c.toNat < 256 := by
  unfold isB64Char at h
  simp only [Bool.or_eq_true, Bool.and_eq_true, decide_eq_true_eq, beq_iff_eq] at h
  omega

theorem all_b64_no_quote {l : List Char} (h : l.all isB64Char = true) : quoteChar ∉ l := by
  intro hm
  have hq := List.all_eq_true.mp h _ hm
  exact absurd hq (by decide)

theorem parse_pyDict (b : KeyBundle) (h : wellFormedBundle b = true) :
    parse_bundle (pyDictStr b) = some b := by
  have h4 : wellFormedBundle b =
      (b.private_key.data.all isB64Char && b.public_key.data.all isB64Char &&
        b.refresh_private_key.data.all isB64Char && b.refresh_public_key.data.all isB64Char) := rfl
  rw [h4] at h
  simp only [Bool.and_eq_true] at h
  obtain ⟨⟨⟨h1, h2⟩, h3⟩, hq4⟩ := h
  unfold parse_bundle pyDictStr
  rw [show (String.mk (pyDictChars b)).data = pyDictChars b from rfl]
  unfold pyDictChars
  simp only [dropPfx_append,
    fun r => takeUntilChar_append quoteChar b.private_key.data r (all_b64_no_quote h1),
    fun r => takeUntilChar_append quoteChar b.public_key.data r (all_b64_no_quote h2),
    fun r => takeUntilChar_append quoteChar b.refresh_private_key.data r (all_b64_no_quote h3),
    fun r => takeUntilChar_append quoteChar b.refresh_public_key.data r (all_b64_no_quote hq4),
    if_pos rfl]
  simp

theorem hdr_ascii : ∀ c ∈ bundleHdr, c.toNat < 256 := by decide

theorem sep2_ascii : ∀ c ∈ sepTail "public_key", c.toNat < 256 := by decide

theorem sep3_ascii : ∀ c ∈ sepTail "refresh_private_key", c.toNat < 256 := by decide

theorem sep4_ascii : ∀ c ∈ sepTail "refresh_public_key", c.toNat < 256 := by decide

theorem quote_ascii : quoteChar.toNat < 256 := by decide

theorem bundleEnd_ascii : ∀ c ∈ bundleEnd, c.toNat < 256 := by decide

theorem all_b64_ascii {s : String} (hs : s.data.all isB64Char = true) :
    ∀ c ∈ s.data, c.toNat < 256 :=
  fun c hc => isB64Char_ascii (List.all_eq_true.mp hs c hc)

theorem pyDict_ascii (b : KeyBundle) (h : wellFormedBundle b = true) :
    ∀ c ∈ (pyDictStr b).data, c.toNat < 256 := by
  have h4 : wellFormedBundle b =
      (b.private_key.data.all isB64Char && b.public_key.data.all isB64Char &&
        b.refresh_private_key.data.all isB64Char && b.refresh_public_key.data.all isB64Char) := rfl
  rw [h4] at h
  simp only [Bool.and_eq_true] at h
  obtain ⟨⟨⟨h1, h2⟩, h3⟩, hq4⟩ := h
  show ∀ c ∈ pyDictChars b, c.toNat < 256
  unfold pyDictChars
  refine List.forall_mem_append.mpr ⟨hdr_ascii, ?_⟩
  refine List.forall_mem_append.mpr ⟨all_b64_ascii h1, ?_⟩
  refine List.forall_mem_cons.mpr ⟨quote_ascii, ?_⟩
  refine List.forall_mem_append.mpr ⟨sep2_ascii, ?_⟩
  refine List.forall_mem_append.mpr ⟨all_b64_ascii h2, ?_⟩
  refine List.forall_mem_cons.mpr ⟨quote_ascii, ?_⟩
  refine List.forall_mem_append.mpr ⟨sep3_ascii, ?_⟩
  refine List.forall_mem_append.mpr ⟨all_b64_ascii h3, ?_⟩
  refine List.forall_mem_cons.mpr ⟨quote_ascii, ?_⟩
  refine List.forall_mem_append.mpr ⟨sep4_ascii, ?_⟩
  refine List.forall_mem_append.mpr ⟨all_b64_ascii hq4, ?_⟩
  exact List.forall_mem_cons.mpr ⟨quote_ascii, bundleEnd_ascii⟩

theorem decrypt_encrypt (encryption_key : String) (nonce : Nat) (b : KeyBundle)
    (h : wellFormedBundle b = true) :
    decrypt_keys encryption_key
      (encrypt_keys encryption_key nonce b.private_key b.public_key
        b.refresh_private_key b.refresh_public_key) = some b := by
  unfold decrypt_keys encrypt_keys
  show (match fernet_decrypt encryption_key
      (fernet_encrypt encryption_key nonce (pyDictStr b)) with
    | none => none
    | some plaintext => parse_bundle plaintext) = some b
  rw [fernet_roundtrip _ _ _ (pyDict_ascii b h)]
  exact parse_pyDict b h

theorem strB64encode_inj {s t : String} (hs : ∀ c ∈ s.data, c.toNat < 256)
    (ht : ∀ c ∈ t.data, c.toNat < 256) (h : strB64encode s = strB64encode t) : s = t := by
  have h1 := strB64_roundtrip s hs
  have h2 := strB64_roundtrip t ht
  rw [h, h2] at h1
  exact (Option.some.inj h1).symm

theorem keyBlob_ascii (n : Nat) : ∀ c ∈ (keyBlob n).data, c.toNat < 256 := by
  intro c hc
  have hM : c = 'M' := List.eq_of_mem_replicate hc
  subst hM
  decide

theorem label_ascii_private : ∀ c ∈ ("PRIVATE KEY").data, c.toNat < 256 := by decide

theorem label_ascii_public : ∀ c ∈ ("PUBLIC KEY").data, c.toNat < 256 := by decide

theorem pemlit1_ascii : ∀ c ∈ ("-----BEGIN ").data, c.toNat < 256 := by decide

theorem pemlit2_ascii : ∀ c ∈ ("-----\n").data, c.toNat < 256 := by decide

theorem pemlit3_ascii : ∀ c ∈ ("\n-----END ").data, c.toNat < 256 := by decide

theorem pemBlock_ascii (label body : String) (hl : ∀ c ∈ label.data, c.toNat < 256)
    (hb : ∀ c ∈ body.data, c.toNat < 256) :
    ∀ c ∈ (pemBlock label body).data, c.toNat < 256 := by
  show ∀ c ∈ (("-----BEGIN ").data ++ label.data ++ ("-----\n").data ++ body.data ++
    ("\n-----END ").data ++ label.data ++ ("-----\n").data), c.toNat < 256
  refine List.forall_mem_append.mpr ⟨?_, pemlit2_ascii⟩
  refine List.forall_mem_append.mpr ⟨?_, hl⟩
  refine List.forall_mem_append.mpr ⟨?_, pemlit3_ascii⟩
  refine List.forall_mem_append.mpr ⟨?_, hb⟩
  refine List.forall_mem_append.mpr ⟨?_, pemlit2_ascii⟩
  exact List.forall_mem_append.mpr ⟨pemlit1_ascii, hl⟩

theorem privPem_ascii (k : ECPrivateKey) :
    ∀ c ∈ (private_bytes_pkcs8_pem k).data, c.toNat < 256 :=
  pemBlock_ascii _ _ label_ascii_private (keyBlob_ascii _)

theorem pubPem_ascii (k : ECPublicKey) :
    ∀ c ∈ (public_bytes_spki_pem k).data, c.toNat < 256 :=
  pemBlock_ascii _ _ label_ascii_public (keyBlob_ascii _)

theorem keyBlob_len (n : Nat) : (keyBlob n).data.length = n + 1 := by
  show (List.replicate (n + 1) 'M').length = n + 1
  simp

theorem pemBlock_len (label body : String) :
    (pemBlock label body).data.length =
      33 + 2 * label.data.length + body.data.length := by
  show (("-----BEGIN ").data ++ label.data ++ ("-----\n").data ++ body.data ++
    ("\n-----END ").data ++ label.data ++ ("-----\n").data).length = _
  have e1 : ("-----BEGIN ").data.length = 11 := rfl
  have e2 : ("-----\n").data.length = 6 := rfl
  have e3 : ("\n-----END ").data.length = 10 := rfl
  simp only [List.length_append, e1, e2, e3]
  omega

theorem privField_inj {e1 e2 : Nat} (h : privField e1 = privField e2) : e1 = e2 := by
  have hpem : private_bytes_pkcs8_pem (ec_generate_private_key e1) =
      private_bytes_pkcs8_pem (ec_generate_private_key e2) :=
    strB64encode_inj (privPem_ascii _) (privPem_ascii _) h
  have hlen : (private_bytes_pkcs8_pem (ec_generate_private_key e1)).data.length =
      (private_bytes_pkcs8_pem (ec_generate_private_key e2)).data.length := by rw [hpem]
  simp only [private_bytes_pkcs8_pem, ec_generate_private_key, pemBlock_len, keyBlob_len] at hlen
  omega

theorem pubField_inj {e1 e2 : Nat} (h : pubField e1 = pubField e2) : e1 = e2 := by
  have hpem : public_bytes_spki_pem (ECPrivateKey.public_key (ec_generate_private_key e1)) =
      public_bytes_spki_pem (ECPrivateKey.public_key (ec_generate_private_key e2)) :=
    strB64encode_inj (pubPem_ascii _) (pubPem_ascii _) h
  have hlen : (public_bytes_spki_pem (ECPrivateKey.public_key (ec_generate_private_key e1))).data.length =
      (public_bytes_spki_pem (ECPrivateKey.public_key (ec_generate_private_key e2))).data.length := by
    rw [hpem]
  simp only [public_bytes_spki_pem, ECPrivateKey.public_key, ec_generate_private_key,
    pemBlock_len, keyBlob_len] at hlen
  omega

theorem b64encode_len4 {l : List Nat} (h : l ≠ []) : 4 ≤ (b64encodeBytes l).length := by
  cases l with
  | nil => exact absurd rfl h
  | cons a t =>
    cases t with
    | nil => simp [b64encodeBytes]
    | cons b t2 =>
      cases t2 with
      | nil => simp [b64encodeBytes]
      | cons c t3 =>
          simp only [b64encodeBytes, List.length_cons]
          omega

theorem privField_len (e : Nat) : 4 ≤ (privField e).data.length := by
  show 4 ≤ (b64encodeBytes (strBytes (private_bytes_pkcs8_pem (ec_generate_private_key e)))).length
  apply b64encode_len4
  intro hn
  have hlen : (strBytes (private_bytes_pkcs8_pem (ec_generate_private_key e))).length = 0 := by
    rw [hn]; rfl
  simp only [strBytes, List.length_map, private_bytes_pkcs8_pem, ec_generate_private_key,
    pemBlock_len, keyBlob_len] at hlen
  omega

theorem pubField_len (e : Nat) : 4 ≤ (pubField e).data.length := by
  show 4 ≤ (b64encodeBytes (strBytes (public_bytes_spki_pem
    (ECPrivateKey.public_key (ec_generate_private_key e))))).length
  apply b64encode_len4
  intro hn
  have hlen : (strBytes (public_bytes_spki_pem
      (ECPrivateKey.public_key (ec_generate_private_key e)))).length = 0 := by
    rw [hn]; rfl
  simp only [strBytes, List.length_map, public_bytes_spki_pem, ECPrivateKey.public_key,
    ec_generate_private_key, pemBlock_len, keyBlob_len] at hlen
  omega

theorem short_ne_privField {s : String} (h : s.data.length < 4) (e : Nat) : s ≠ privField e := by
  intro he
  have h2 : s.data.length = (privField e).data.length := by rw [he]
  have h4 := privField_len e
  omega

theorem short_ne_pubField {s : String} (h : s.data.length < 4) (e : Nat) : s ≠ pubField e := by
  intro he
  have h2 : s.data.length = (pubField e).data.length := by rw [he]
  have h4 := pubField_len e
  omega

theorem firstByCreatedDesc_eq_none {l : List KeyPair} :
    firstByCreatedDesc l = none ↔ l = [] := by
  cases l with
  | nil => simp [firstByCreatedDesc]
  | cons kp t =>
      constructor
      · intro h2
        exfalso
        simp only [firstByCreatedDesc] at h2
        cases hh : firstByCreatedDesc t with
        | none => simp only [hh] at h2; exact Option.noConfusion h2
        | some best =>
            simp only [hh] at h2
            by_cases hb : best.created_at > kp.created_at
            · rw [if_pos hb] at h2; exact Option.noConfusion h2
            · rw [if_neg hb] at h2; exact Option.noConfusion h2
      · intro h2
        exact absurd h2 (List.cons_ne_nil kp t)

theorem firstByCreatedDesc_mem {l : List KeyPair} {kp : KeyPair}
    (h : firstByCreatedDesc l = some kp) : kp ∈ l := by
  induction l generalizing kp with
  | nil => exact Option.noConfusion h
  | cons a t ih =>
      simp only [firstByCreatedDesc] at h
      cases hh : firstByCreatedDesc t with
      | none =>
          simp only [hh] at h
          have := Option.some.inj h
          subst this
          exact List.mem_cons_self _ _
      | some best =>
          simp only [hh] at h
          by_cases hb : best.created_at > a.created_at
          · rw [if_pos hb] at h
            have := Option.some.inj h
            subst this
            exact List.mem_cons_of_mem _ (ih hh)
          · rw [if_neg hb] at h
            have := Option.some.inj h
            subst this
            exact List.mem_cons_self _ _

theorem firstByCreatedDesc_max {l : List KeyPair} {kp : KeyPair}
    (h : firstByCreatedDesc l = some kp) : ∀ x ∈ l, x.created_at ≤ kp.created_at := by
  induction l generalizing kp with
  | nil => exact Option.noConfusion h
  | cons a t ih =>
      simp only [firstByCreatedDesc] at h
      intro x hx
      cases hh : firstByCreatedDesc t with
      | none =>
          simp only [hh] at h
          have := Option.some.inj h
          subst this
          have ht : t = [] := firstByCreatedDesc_eq_none.mp hh
          subst ht
          simp only [List.mem_singleton] at hx
          subst hx
          exact le_refl _
      | some best =>
          simp only [hh] at h
          rcases List.mem_cons.mp hx with rfl | hxt
          · by_cases hb : best.created_at > x.created_at
            · rw [if_pos hb] at h
              have := Option.some.inj h
              subst this
              exact le_of_lt hb
            · rw [if_neg hb] at h
              have := Option.some.inj h
              subst this
              exact le_refl _
          · have hle := ih hh x hxt
            by_cases hb : best.created_at > a.created_at
            · rw [if_pos hb] at h
              have := Option.some.inj h
              subst this
              exact hle
            · rw [if_neg hb] at h
              have := Option.some.inj h
              subst this
              omega

theorem get_latest_none_iff (store : List KeyPair) (code : String) :
    get_latest_key_pair store code = none ↔ ∀ kp ∈ store, kp.system_code ≠ code := by
  unfold get_latest_key_pair
  rw [firstByCreatedDesc_eq_none, List.filter_eq_nil_iff]
  constructor
  · intro h kp hm hcode
    exact h kp hm (by simp [hcode])
  · intro h kp hm hcode
    exact h kp hm (by simpa using hcode)

theorem get_latest_some {store : List KeyPair} {code : String} {kp : KeyPair}
    (h : get_latest_key_pair store code = some kp) :
    kp ∈ store ∧ kp.system_code = code ∧
      ∀ x ∈ store, x.system_code = code → x.created_at ≤ kp.created_at := by
  unfold get_latest_key_pair at h
  have hmem := firstByCreatedDesc_mem h
  have hmax := firstByCreatedDesc_max h
  have h1 := List.mem_filter.mp hmem
  refine ⟨h1.1, by simpa using h1.2, ?_⟩
  intro x hx hcode
  exact hmax x (List.mem_filter.mpr ⟨hx, by simp [hcode]⟩)

theorem key_is_expired_iff (now : Nat) (kp : KeyPair) :
    key_is_expired now kp = true ↔ 86400 < now - kp.created_at := by
  unfold key_is_expired
  simp only [decide_eq_true_eq, gt_iff_lt]
  omega

theorem key_not_expired_iff (now : Nat) (kp : KeyPair) :
    key_is_expired now kp = false ↔ now - kp.created_at ≤ 86400 := by
  rw [← Bool.not_eq_true, key_is_expired_iff]
  omega

theorem generate_keys_eq (e : Nat) :
    generate_keys e = (privField e, pubField e, privField (e + 1), pubField e) := rfl

theorem gen_ok_eq (encryption_key : String) (now : Nat) (st : VaultState) (code : String) :
    generate_and_encrypt_keys encryption_key false now st code =
      (Except.ok (encrypt_keys encryption_key st.nonce (privField st.entropy) (pubField st.entropy)
          (privField (st.entropy + 1)) (pubField st.entropy)),
       { store := st.store ++ [genRecord st code now], nextId := st.nextId + 1,
         entropy := st.entropy + 2, nonce := st.nonce + 1 }) := rfl

theorem gen_fail_eq (encryption_key : String) (now : Nat) (st : VaultState) (code : String) :
    generate_and_encrypt_keys encryption_key true now st code =
      (Except.error DbError.persistenceError, { st with entropy := st.entropy + 2 }) := rfl

theorem keysPairs_reuse {st : VaultState} {code : String} {kp : KeyPair}
    (ek : String) (cf : Bool) (now : Nat)
    (h : get_latest_key_pair st.store code = some kp) (hexp : key_is_expired now kp = false) :
    keysPairs ek cf now st code =
      (Except.ok (encrypt_keys ek st.nonce kp.private_key kp.public_key
          kp.refresh_private_key kp.refresh_public_key),
       { st with nonce := st.nonce + 1 }) := by
  simp [keysPairs, h, hexp]

theorem keysPairs_gen_none {st : VaultState} {code : String} (ek : String) (cf : Bool) (now : Nat)
    (h : get_latest_key_pair st.store code = none) :
    keysPairs ek cf now st code = generate_and_encrypt_keys ek cf now st code := by
  simp [keysPairs, h]

theorem keysPairs_gen_expired {st : VaultState} {code : String} {kp : KeyPair}
    (ek : String) (cf : Bool) (now : Nat)
    (h : get_latest_key_pair st.store code = some kp) (hexp : key_is_expired now kp = true) :
    keysPairs ek cf now st code = generate_and_encrypt_keys ek cf now st code := by
  simp [keysPairs, h, hexp]

theorem fernet_nonce_inj {key pt : String} {n1 n2 : Nat}
    (h : fernet_encrypt key n1 pt = fernet_encrypt key n2 pt) : n1 = n2 := by
  have hrep : ∀ n : Nat, ('.' : Char) ∉ List.replicate n 'A' := by
    intro n hm
    exact absurd (List.eq_of_mem_replicate hm) (by decide)
  have hd : b64encodeBytes (strBytes key) ++
      ('.' :: (List.replicate n1 'A' ++ ('.' :: b64encodeBytes (strBytes pt)))) =
      b64encodeBytes (strBytes key) ++
      ('.' :: (List.replicate n2 'A' ++ ('.' :: b64encodeBytes (strBytes pt)))) :=
    congrArg String.data h
  have hmid := List.cons.inj (List.append_cancel_left hd)
  have g1 := takeUntilChar_append '.' (List.replicate n1 'A')
    (b64encodeBytes (strBytes pt)) (hrep n1)
  have g2 := takeUntilChar_append '.' (List.replicate n2 'A')
    (b64encodeBytes (strBytes pt)) (hrep n2)
  rw [hmid.2] at g1
  rw [g2] at g1
  have hrepl : List.replicate n2 'A' = List.replicate n1 'A' :=
    congrArg Prod.fst (Option.some.inj g1)
  have := congrArg List.length hrepl
  simpa using this.symm

/-- C1: the claim says each returned public key is derived from its own
private key; in `generate_keys` (source line 140) the refresh public key is
instead `private_key.public_key()`, the derivation of the PRIMARY private
key, and it differs from the derivation of the refresh private key (drawn
at `entropy + 1`). -/
theorem C1_refresh_public_key_cross_derived :
    ∀ entropy : Nat,
      (generate_keys entropy).2.2.2 =
        strB64encode (public_bytes_spki_pem
          (ECPrivateKey.public_key (ec_generate_private_key entropy)))
      ∧ (generate_keys entropy).2.2.2 ≠
        strB64encode (public_bytes_spki_pem
          (ECPrivateKey.public_key (ec_generate_private_key (entropy + 1)))) := by
  intro e
  constructor
  · rfl
  · show pubField e ≠ pubField (e + 1)
    intro h
    exact absurd (pubField_inj h) (by omega)

/-- C2: `keysPairs` reuses the fetched latest record exactly when one exists
and `now - created_at ≤ 24h` (in seconds, UTC); otherwise — no record, or
strictly older than 24h — it calls the generation branch, which appends one
new record (timestamped `now`, carrying the requested code) and encrypts
exactly that record's four fields. -/
theorem C2_reuse_window (ek : String) (cf : Bool) (now : Nat) (st : VaultState) (code : String) :
    (∀ kp, get_latest_key_pair st.store code = some kp → now - kp.created_at ≤ 86400 →
        keysPairs ek cf now st code =
          (Except.ok (encrypt_keys ek st.nonce kp.private_key kp.public_key
              kp.refresh_private_key kp.refresh_public_key),
           { st with nonce := st.nonce + 1 }))
    ∧ (∀ kp, get_latest_key_pair st.store code = some kp → 86400 < now - kp.created_at →
        keysPairs ek cf now st code = generate_and_encrypt_keys ek cf now st code)
    ∧ (get_latest_key_pair st.store code = none →
        keysPairs ek cf now st code = generate_and_encrypt_keys ek cf now st code)
    ∧ generate_and_encrypt_keys ek false now st code =
        (Except.ok (encrypt_keys ek st.nonce (genRecord st code now).private_key
            (genRecord st code now).public_key (genRecord st code now).refresh_private_key
            (genRecord st code now).refresh_public_key),
         { store := st.store ++ [genRecord st code now], nextId := st.nextId + 1,
           entropy := st.entropy + 2, nonce := st.nonce + 1 }) := by
  refine ⟨?_, ?_, ?_, ?_⟩
  · intro kp h hle
    exact keysPairs_reuse ek cf now h ((key_not_expired_iff now kp).mpr hle)
  · intro kp h hgt
    exact keysPairs_gen_expired ek cf now h ((key_is_expired_iff now kp).mpr hgt)
  · intro h
    exact keysPairs_gen_none ek cf now h
  · exact gen_ok_eq ek now st code

theorem C2_reuse_window_witness :
    keysPairs "K" false 10 sampleState "A" =
      (Except.ok (encrypt_keys "K" 0 "PK" "PB" "RPK" "RPB"),
       { store := [sampleRecord], nextId := 1, entropy := 0, nonce := 1 }) :=
  (C2_reuse_window "K" false 10 sampleState "A").1 sampleRecord (by decide) (by decide)

/-- C3: when the commit of the generation branch fails, the whole `issue`
call returns the propagated persistence error and no ciphertext, and the
store is unchanged (the uncommitted row is discarded when the session
closes); `DatabaseSession.commit_rollback` likewise rolls back the staged
row before re-raising. -/
theorem C3_commit_failure_aborts (ek : String) (now : Nat) (st : VaultState) (code : String)
    (hgen : ∀ kp, get_latest_key_pair st.store code = some kp → key_is_expired now kp = true) :
    (keysPairs ek true now st code).1 = Except.error DbError.persistenceError
    ∧ ((keysPairs ek true now st code).2).store = st.store
    ∧ ∀ s : Session, (commit_rollback true s).1 = Except.error DbError.persistenceError
        ∧ ((commit_rollback true s).2).committed = s.committed
        ∧ ((commit_rollback true s).2).pending = [] := by
  have hgoal : keysPairs ek true now st code =
      (Except.error DbError.persistenceError, { st with entropy := st.entropy + 2 }) := by
    cases h : get_latest_key_pair st.store code with
    | none => rw [keysPairs_gen_none ek true now h, gen_fail_eq]
    | some kp => rw [keysPairs_gen_expired ek true now h (hgen kp h), gen_fail_eq]
  rw [hgoal]
  exact ⟨rfl, rfl, fun s => ⟨rfl, rfl, rfl⟩⟩

theorem C3_commit_failure_aborts_witness :
    (keysPairs "K" true 0 emptyState "A").1 = Except.error DbError.persistenceError :=
  (C3_commit_failure_aborts "K" 0 emptyState "A"
    (fun _ h => Option.noConfusion h)).1

/-- C4: the round-trip law — decrypting the output of `encrypt_keys` under
the same symmetric key reproduces the four-field bundle exactly, for every
well-formed (base64-field) bundle. -/
theorem C4_roundtrip_law (ek : String) (nonce : Nat) (b : KeyBundle)
    (h : wellFormedBundle b = true) :
    decrypt_keys ek (encrypt_keys ek nonce b.private_key b.public_key
      b.refresh_private_key b.refresh_public_key) = some b :=
  decrypt_encrypt ek nonce b h

theorem C4_roundtrip_law_witness :
    decrypt_keys "K" (encrypt_keys "K" 0 "PK" "PB" "RPK" "RPB") = some sampleBundle :=
  C4_roundtrip_law "K" 0 sampleBundle (by decide)

/-- C5: `get_latest_key_pair` returns `none` exactly when no record carries
the code; any returned record carries the code, is stored, and has maximal
`created_at` among records of that code; for three records of the code at
times t1 < t2 < t3 it returns the t3 record. -/
theorem C5_latest_record_correct (store : List KeyPair) (code : String) :
    (get_latest_key_pair store code = none ↔ ∀ kp ∈ store, kp.system_code ≠ code)
    ∧ (∀ kp, get_latest_key_pair store code = some kp →
        kp ∈ store ∧ kp.system_code = code ∧
          ∀ x ∈ store, x.system_code = code → x.created_at ≤ kp.created_at)
    ∧ (∀ r1 r2 r3 : KeyPair, r1.system_code = code → r2.system_code = code →
        r3.system_code = code → r1.created_at < r2.created_at → r2.created_at < r3.created_at →
        get_latest_key_pair [r1, r2, r3] code = some r3) := by
  refine ⟨get_latest_none_iff store code, fun kp h => get_latest_some h, ?_⟩
  intro r1 r2 r3 h1 h2 h3 h12 h23
  unfold get_latest_key_pair
  have hf : List.filter (fun kp => kp.system_code == code) [r1, r2, r3] = [r1, r2, r3] := by
    simp [List.filter, h1, h2, h3]
  rw [hf]
  have h13 := Nat.lt_trans h12 h23
  simp [firstByCreatedDesc, h23, h13]

theorem C5_latest_record_correct_witness :
    get_latest_key_pair [recT1, recT2, recT3] "A" = some recT3 :=
  (C5_latest_record_correct [recT1, recT2, recT3] "A").2.2 recT1 recT2 recT3
    rfl rfl rfl (by decide) (by decide)

theorem sampleState_fresh : freshState sampleState := by
  intro kp hm e _
  have hk : kp = sampleRecord := List.mem_singleton.mp hm
  subst hk
  exact ⟨short_ne_privField (by decide) e, short_ne_pubField (by decide) e,
    short_ne_privField (by decide) e, short_ne_pubField (by decide) e⟩

/-- C6: every operation only ever appends to the store (the old contents
stay as a prefix); and when the latest record for a code is expired, the
next `issue` appends exactly one new record, leaves the old record present
and unmodified, and the new record's four key fields all differ from the old
record's (for any state whose randomness counters were never replayed). -/
theorem C6_append_only_regeneration (ek : String) (now : Nat) (st : VaultState)
    (code : String) (kp : KeyPair)
    (hfresh : freshState st)
    (hlatest : get_latest_key_pair st.store code = some kp)
    (hexp : key_is_expired now kp = true) :
    (∀ (ek' : String) (cf' : Bool) (now' : Nat) (st' : VaultState) (code' : String),
        ∃ tail, ((keysPairs ek' cf' now' st' code').2).store = st'.store ++ tail)
    ∧ ∃ newkp,
        ((keysPairs ek false now st code).2).store = st.store ++ [newkp]
        ∧ kp ∈ ((keysPairs ek false now st code).2).store
        ∧ newkp.private_key ≠ kp.private_key
        ∧ newkp.public_key ≠ kp.public_key
        ∧ newkp.refresh_private_key ≠ kp.refresh_private_key
        ∧ newkp.refresh_public_key ≠ kp.refresh_public_key := by
  constructor
  · intro ek' cf' now' st' code'
    cases h' : get_latest_key_pair st'.store code' with
    | none =>
        rw [keysPairs_gen_none ek' cf' now' h']
        cases cf' with
        | true => exact ⟨[], by rw [gen_fail_eq]; simp⟩
        | false => exact ⟨[genRecord st' code' now'], by rw [gen_ok_eq]⟩
    | some l =>
        by_cases hl : key_is_expired now' l = true
        · rw [keysPairs_gen_expired ek' cf' now' h' hl]
          cases cf' with
          | true => exact ⟨[], by rw [gen_fail_eq]; simp⟩
          | false => exact ⟨[genRecord st' code' now'], by rw [gen_ok_eq]⟩
        · rw [keysPairs_reuse ek' cf' now' h' (Bool.not_eq_true _ ▸ hl)]
          exact ⟨[], by simp⟩
  · refine ⟨genRecord st code now, ?_, ?_, ?_, ?_, ?_, ?_⟩
    · rw [keysPairs_gen_expired ek false now hlatest hexp, gen_ok_eq]
    · rw [keysPairs_gen_expired ek false now hlatest hexp, gen_ok_eq]
      exact List.mem_append_left _ (get_latest_some hlatest).1
    · exact (hfresh kp (get_latest_some hlatest).1 st.entropy (Nat.le_refl _)).1.symm
    · exact (hfresh kp (get_latest_some hlatest).1 st.entropy (Nat.le_refl _)).2.1.symm
    · exact (hfresh kp (get_latest_some hlatest).1 (st.entropy + 1)
        (Nat.le_succ _)).2.2.1.symm
    · exact (hfresh kp (get_latest_some hlatest).1 st.entropy (Nat.le_refl _)).2.2.2.symm

theorem C6_append_only_regeneration_witness :
    ∃ newkp, ((keysPairs "K" false 100000 sampleState "A").2).store =
      sampleState.store ++ [newkp] ∧ newkp.private_key ≠ sampleRecord.private_key := by
  obtain ⟨-, newkp, hstore, -, hne, -⟩ :=
    C6_append_only_regeneration "K" 100000 sampleState "A" sampleRecord
      sampleState_fresh (by decide) (by decide)
  exact ⟨newkp, hstore, hne⟩

/-- C7: two `issue` calls for the same code, both inside the 24h window of
the same latest record, both succeed and their ciphertexts decrypt to the
same (bit-identical) four-field bundle — the bundle of that record. -/
theorem C7_idempotent_reuse (ek : String) (cf1 cf2 : Bool) (t1 t2 : Nat) (st : VaultState)
    (code : String) (kp : KeyPair)
    (hlatest : get_latest_key_pair st.store code = some kp)
    (h1 : t1 - kp.created_at ≤ 86400) (h2 : t2 - kp.created_at ≤ 86400)
    (hwf : wellFormedBundle (bundleOf kp) = true) :
    ∃ c1 c2,
      (keysPairs ek cf1 t1 st code).1 = Except.ok c1
      ∧ (keysPairs ek cf2 t2 ((keysPairs ek cf1 t1 st code).2) code).1 = Except.ok c2
      ∧ decrypt_keys ek c1 = some (bundleOf kp)
      ∧ decrypt_keys ek c2 = some (bundleOf kp) := by
  have hne1 := (key_not_expired_iff t1 kp).mpr h1
  have hne2 := (key_not_expired_iff t2 kp).mpr h2
  have e1 := keysPairs_reuse ek cf1 t1 hlatest hne1
  have hlatest2 : get_latest_key_pair
      ({ st with nonce := st.nonce + 1 } : VaultState).store code = some kp := hlatest
  have e2 := keysPairs_reuse ek cf2 t2 hlatest2 hne2
  refine ⟨encrypt_keys ek st.nonce kp.private_key kp.public_key
      kp.refresh_private_key kp.refresh_public_key,
    encrypt_keys ek (st.nonce + 1) kp.private_key kp.public_key
      kp.refresh_private_key kp.refresh_public_key, ?_, ?_, ?_, ?_⟩
  · rw [e1]
  · rw [e1]
    show (keysPairs ek cf2 t2 { st with nonce := st.nonce + 1 } code).1 = _
    rw [e2]
  · exact decrypt_encrypt ek st.nonce (bundleOf kp) hwf
  · exact decrypt_encrypt ek (st.nonce + 1) (bundleOf kp) hwf

theorem C7_idempotent_reuse_witness :
    ∃ c1 c2,
      (keysPairs "K" false 5 sampleState "A").1 = Except.ok c1
      ∧ (keysPairs "K" false 15 ((keysPairs "K" false 5 sampleState "A").2) "A").1 =
        Except.ok c2
      ∧ decrypt_keys "K" c1 = some (bundleOf sampleRecord)
      ∧ decrypt_keys "K" c2 = some (bundleOf sampleRecord) :=
  C7_idempotent_reuse "K" false false 5 15 sampleState "A" sampleRecord
    (by decide) (by decide) (by decide) (by decide)

/-- C8: `issue` on the empty store generates and persists one record for the
requested code and returns a non-empty ciphertext decrypting to that
record's bundle: four non-empty base64 fields, each of which base64-decodes
to a PEM block. -/
theorem C8_empty_store_scenario :
    ∃ c newkp,
      (keysPairs "K" false 0 emptyState "BILLING-01").1 = Except.ok c
      ∧ ((keysPairs "K" false 0 emptyState "BILLING-01").2).store = [newkp]
      ∧ newkp.system_code = "BILLING-01"
      ∧ c ≠ ""
      ∧ decrypt_keys "K" c = some (bundleOf newkp)
      ∧ wellFormedBundle (bundleOf newkp) = true
      ∧ newkp.private_key ≠ "" ∧ newkp.public_key ≠ ""
      ∧ newkp.refresh_private_key ≠ "" ∧ newkp.refresh_public_key ≠ ""
      ∧ (∃ p1, b64decodeStr newkp.private_key = some p1 ∧ isPemBlock p1 = true)
      ∧ (∃ p2, b64decodeStr newkp.public_key = some p2 ∧ isPemBlock p2 = true)
      ∧ (∃ p3, b64decodeStr newkp.refresh_private_key = some p3 ∧ isPemBlock p3 = true)
      ∧ (∃ p4, b64decodeStr newkp.refresh_public_key = some p4 ∧ isPemBlock p4 = true) := by
  have e0 : keysPairs "K" false 0 emptyState "BILLING-01" =
      generate_and_encrypt_keys "K" false 0 emptyState "BILLING-01" :=
    keysPairs_gen_none "K" false 0 rfl
  have hwf : wellFormedBundle (bundleOf (genRecord emptyState "BILLING-01" 0)) = true := by
    decide
  refine ⟨encrypt_keys "K" 0 (privField 0) (pubField 0) (privField 1) (pubField 0),
    genRecord emptyState "BILLING-01" 0, ?_, ?_, rfl, ?_, ?_, hwf, ?_, ?_, ?_, ?_,
    ?_, ?_, ?_, ?_⟩
  · rw [e0, gen_ok_eq]
    rfl
  · rw [e0, gen_ok_eq]
    rfl
  · decide
  · exact decrypt_encrypt "K" 0 (bundleOf (genRecord emptyState "BILLING-01" 0)) hwf
  · decide
  · decide
  · decide
  · decide
  · exact ⟨private_bytes_pkcs8_pem (ec_generate_private_key 0),
      strB64_roundtrip _ (privPem_ascii _), by decide⟩
  · exact ⟨public_bytes_spki_pem (ECPrivateKey.public_key (ec_generate_private_key 0)),
      strB64_roundtrip _ (pubPem_ascii _), by decide⟩
  · exact ⟨private_bytes_pkcs8_pem (ec_generate_private_key 1),
      strB64_roundtrip _ (privPem_ascii _), by decide⟩
  · exact ⟨public_bytes_spki_pem (ECPrivateKey.public_key (ec_generate_private_key 0)),
      strB64_roundtrip _ (pubPem_ascii _), by decide⟩

/-- C9: encryption embeds freshness material — under distinct freshness
draws the same well-formed bundle encrypts to different ciphertexts, and
both ciphertexts still decrypt back to the bundle. -/
theorem C9_nondeterministic_encryption (ek : String) (n1 n2 : Nat) (b : KeyBundle)
    (hne : n1 ≠ n2) (hwf : wellFormedBundle b = true) :
    encrypt_keys ek n1 b.private_key b.public_key b.refresh_private_key b.refresh_public_key ≠
      encrypt_keys ek n2 b.private_key b.public_key b.refresh_private_key b.refresh_public_key
    ∧ decrypt_keys ek (encrypt_keys ek n1 b.private_key b.public_key
        b.refresh_private_key b.refresh_public_key) = some b
    ∧ decrypt_keys ek (encrypt_keys ek n2 b.private_key b.public_key
        b.refresh_private_key b.refresh_public_key) = some b :=
  ⟨fun h => hne (fernet_nonce_inj h),
   decrypt_encrypt ek n1 b hwf, decrypt_encrypt ek n2 b hwf⟩

theorem C9_nondeterministic_encryption_witness :
    encrypt_keys "K" 0 "PK" "PB" "RPK" "RPB" ≠ encrypt_keys "K" 1 "PK" "PB" "RPK" "RPB"
    ∧ decrypt_keys "K" (encrypt_keys "K" 0 "PK" "PB" "RPK" "RPB") = some sampleBundle
    ∧ decrypt_keys "K" (encrypt_keys "K" 1 "PK" "PB" "RPK" "RPB") = some sampleBundle :=
  C9_nondeterministic_encryption "K" 0 1 sampleBundle (by decide) (by decide)

/-- C10: when the latest record for the code exists and is unexpired, the
`issue` call writes nothing — the persisted records are exactly the same
before and after; and any call that does change the store took the
generation branch. -/
theorem C10_reuse_performs_no_write (ek : String) (cf : Bool) (now : Nat) (st : VaultState)
    (code : String) (kp : KeyPair)
    (hlatest : get_latest_key_pair st.store code = some kp)
    (hexp : key_is_expired now kp = false) :
    ((keysPairs ek cf now st code).2).store = st.store
    ∧ ∀ (ek' : String) (cf' : Bool) (now' : Nat) (st' : VaultState) (code' : String),
        ((keysPairs ek' cf' now' st' code').2).store ≠ st'.store →
        keysPairs ek' cf' now' st' code' = generate_and_encrypt_keys ek' cf' now' st' code' := by
  constructor
  · rw [keysPairs_reuse ek cf now hlatest hexp]
  · intro ek' cf' now' st' code' hchg
    cases h' : get_latest_key_pair st'.store code' with
    | none => exact keysPairs_gen_none ek' cf' now' h'
    | some l =>
        by_cases hl : key_is_expired now' l = true
        · exact keysPairs_gen_expired ek' cf' now' h' hl
        · exfalso
          rw [keysPairs_reuse ek' cf' now' h' (Bool.not_eq_true _ ▸ hl)] at hchg
          exact hchg rfl

theorem C10_reuse_performs_no_write_witness :
    ((keysPairs "K" false 5 sampleState "A").2).store = sampleState.store :=
  (C10_reuse_performs_no_write "K" false 5 sampleState "A" sampleRecord
    (by decide) (by decide)).1

theorem C1_refresh_public_key_cross_derived_witness :
    (generate_keys 0).2.2.2 =
      strB64encode (public_bytes_spki_pem
        (ECPrivateKey.public_key (ec_generate_private_key 0)))
    ∧ (generate_keys 0).2.2.2 ≠
      strB64encode (public_bytes_spki_pem
        (ECPrivateKey.public_key (ec_generate_private_key (0 + 1)))) :=
  C1_refresh_public_key_cross_derived 0
